import Mathlib

set_option maxHeartbeats 1000000

/-! Verification development for the in-memory neighbor sampler
(`torch_geometric/sampler/neighbor_sampler.py`).

The Python file under study is dispatch code: it stores the graph in CSC
form, selects a backend, invokes a native per-hop sampling operator
(`pyg.neighbor_sample`, `torch_sparse.neighbor_sample` and their
heterogeneous/temporal variants) and assembles the result.  The dispatch
logic (`NeighborSampler.sample`, `_set_num_neighbors_and_num_hops`,
`_hetero_sparse_neighbor_sample`, `remap_keys`) is embedded directly from
the source.  The native operators are not part of the repository sources;
they are modelled from the design spec (sections 4.3 to 4.5), as marked on
each definition. -/

/-! ## Association-list model of Python dicts -/

/-- Python dict lookup `d[k]` as an association list lookup.  `dinsert`
keeps keys unique, so the first binding is the binding. -/
def dlookup {K V : Type} [DecidableEq K] (d : List (K × V)) (k : K) : Option V :=
  (d.find? (fun kv => decide (kv.1 = k))).map Prod.snd

/-- Python dict update `d[k] = v`: an existing binding is overwritten in
place, a missing key is appended (insertion order is preserved, as in
Python dicts). -/
def dinsert {K V : Type} [DecidableEq K] : List (K × V) → K → V → List (K × V)
  | [], k, v => [(k, v)]
  | kv :: d, k, v => if kv.1 = k then (k, v) :: d else kv :: dinsert d k v

/-- Python dict comprehension over a list `ks`, producing key `(f a).1`
bound to value `(f a).2` for each `a` in `ks` (later entries overwrite
earlier ones with the same key, as in Python). -/
def dcomp {A K V : Type} [DecidableEq K] (ks : List A) (f : A → K × V) : List (K × V) :=
  ks.foldl (fun d a => dinsert d (f a).1 (f a).2) []

/-- Lookup with a default value, `d.get(k, dflt)`. -/
def dGetD {K V : Type} [DecidableEq K] (d : List (K × V)) (k : K) (dflt : V) : V :=
  (dlookup d k).getD dflt

/-- Append one element to the list stored under key `k` (used by the
modelled heterogeneous traversal to grow per-type output lists). -/
def dappend1 {K V : Type} [DecidableEq K] (d : List (K × List V)) (k : K) (x : V) :
    List (K × List V) :=
  dinsert d k (dGetD d k [] ++ [x])

/-- `remap_keys` from the source (line 343): rebuild a dict with every key
sent through `mapping`.  A key of `original` missing from `mapping` is a
Python `KeyError`, modelled as `none`. -/
def remap_keys {K K2 V : Type} [DecidableEq K] [DecidableEq K2] (original : List (K × V))
    (mapping : List (K × K2)) : Option (List (K2 × V)) :=
  original.foldl (fun acc kv =>
    match acc, dlookup mapping kv.1 with
    | some d, some k2 => some (dinsert d k2 kv.2)
    | _, _ => none) (some [])

/-! ## Random selection policies

Modelled from the spec (section 4.3): the per-node selection of neighbor
candidates.  Randomness is shallowly embedded as an oracle `g : Nat → Nat`
supplying the successive raw draws; every theorem below quantifies over
all oracles, so the results hold for every realisation of the randomness. -/

/-- Modelled from the spec (section 4.3): selection without replacement.
Draws `min k |cs|` distinct candidates: each round removes the drawn
candidate from the pool.  Exhaustion (fewer candidates than budget) simply
returns the whole pool; it is not an error. -/
def sampleWoR {α : Type} [Inhabited α] (g : Nat → Nat) : Nat → List α → List α
  | 0, _ => []
  | _ + 1, [] => []
  | k + 1, a :: as =>
    let l := a :: as
    let i := g k % l.length
    l.getD i default :: sampleWoR g k (l.eraseIdx i)

/-- Modelled from the spec (section 4.3): selection with replacement.
Draws exactly `k` candidates independently (repetition possible); an empty
candidate pool contributes zero selections. -/
def sampleWR {α : Type} [Inhabited α] (g : Nat → Nat) (k : Nat) (cs : List α) : List α :=
  if cs.isEmpty then [] else (List.range k).map (fun j => cs.getD (g j % cs.length) default)

/-- Modelled from the spec (section 4.3): per-node selection.  A negative
budget means unbounded (all candidates); otherwise dispatch on `replace`. -/
def selectNeighbors {α : Type} [Inhabited α] (g : Nat → Nat) (replace : Bool) (k : Int)
    (cs : List α) : List α :=
  if k < 0 then cs
  else if replace then sampleWR g k.toNat cs
  else sampleWoR g k.toNat cs

/-! ## Compressed adjacency (CSC) -/

/-- The column-compressed adjacency produced by `to_csc` and stored by
`NeighborSampler.__init__` (source lines 49 to 57): `colptr`/`row` in CSC
layout and `perm` mapping each CSC position back to the original edge-list
position. -/
structure CSC where
  colptr : List Nat
  row : List Nat
  perm : List Nat
  deriving DecidableEq

/-- CSC positions holding the in-neighbors of node `n`: the half-open
range from `colptr[n]` to `colptr[n+1]` (spec section 3). -/
def neighborRange (csc : CSC) (n : Nat) : List Nat :=
  List.range' (csc.colptr.getD n 0) (csc.colptr.getD (n + 1) 0 - csc.colptr.getD n 0)

/-- The destination column owning CSC position `p`: the number of columns
whose range ends at or before `p`.  For a monotone `colptr` this is the
unique `c` with `colptr[c] ≤ p < colptr[c+1]`. -/
def colOf (csc : CSC) (p : Nat) : Nat :=
  ((List.range (csc.colptr.length - 1)).filter
    (fun c => decide (csc.colptr.getD (c + 1) 0 ≤ p))).length

/-- CSC positions whose stored source is `n`, i.e. the out-edges of `n`
(consulted in addition to in-edges when `directed` is false, spec
section 4.3 step 2). -/
def outPositions (csc : CSC) (n : Nat) : List Nat :=
  (List.range csc.row.length).filter (fun p => decide (csc.row.getD p 0 = n))

/-- Modelled from the spec (section 4.3 step 2): candidate neighbors of an
active node `n`, as triples `(neighbor, position, destination)`.  In-edges
contribute `(row[p], p, n)`; when `directed` is false, out-edges of `n`
contribute `(colOf p, p, colOf p)` as well. -/
def candidatesOf (csc : CSC) (directed : Bool) (n : Nat) : List (Nat × Nat × Nat) :=
  (neighborRange csc n).map (fun p => (csc.row.getD p 0, p, n)) ++
    (if directed then []
     else (outPositions csc n).map (fun p => (colOf csc p, p, colOf csc p)))

/-- Modelled from the spec (section 4.3 step 2): when a node-time
constraint is active, keep only candidates whose neighbor timestamp is at
most the expanded node's timestamp. -/
def applyTimeFilter (nt : Option (List Nat)) (n : Nat) (cs : List (Nat × Nat × Nat)) :
    List (Nat × Nat × Nat) :=
  match nt with
  | none => cs
  | some t => cs.filter (fun c => decide (t.getD c.1 0 ≤ t.getD n 0))

/-! ## Modelled homogeneous traversal -/

/-- Per-call traversal state (spec section 4.3): nodes in discovery order
(seeds first), a parallel list of owning seed indices, and the sampled
edges as `(source, destination, CSC position)` triples. -/
structure SampleState where
  nodes : List Nat
  batch : List Nat
  edges : List (Nat × Nat × Nat)
  deriving DecidableEq

/-- Modelled from the spec (section 4.3 step 3): record the selected
candidate's edge, and add the neighbor to the visited node list (tagged
with batch `b`) unless it was already visited. -/
def visitStep (csc : CSC) (b : Nat) (st : SampleState) (c : Nat × Nat × Nat) : SampleState :=
  let st2 : SampleState :=
    { st with edges := st.edges ++ [(csc.row.getD c.2.1 0, c.2.2, c.2.1)] }
  if c.1 ∈ st2.nodes then st2
  else { st2 with nodes := st2.nodes ++ [c.1], batch := st2.batch ++ [b] }

/-- Modelled from the spec (section 4.3 step 2): expand one active node
`nb.1` (owned by batch `nb.2`) at budget `k`. -/
def expandOne (csc : CSC) (nt : Option (List Nat)) (replace directed : Bool) (g : Nat → Nat)
    (k : Int) (st : SampleState) (nb : Nat × Nat) : SampleState :=
  let sel := selectNeighbors g replace k
    (applyTimeFilter nt nb.1 (candidatesOf csc directed nb.1))
  sel.foldl (visitStep csc nb.2) st

/-- Modelled from the spec (section 4.3): one hop, expanding every active
node in order at this hop's budget. -/
def runHop (csc : CSC) (nt : Option (List Nat)) (replace directed : Bool) (g : Nat → Nat)
    (k : Int) (st : SampleState) (active : List (Nat × Nat)) : SampleState :=
  active.foldl (expandOne csc nt replace directed g k) st

/-- Modelled from the spec (section 4.3 step 4): run the hops of the
schedule; each hop's newly appended nodes form the next active set. -/
def runHops (csc : CSC) (nt : Option (List Nat)) (replace directed : Bool) (g : Nat → Nat) :
    List Int → List (Nat × Nat) → SampleState → SampleState
  | [], _, st => st
  | k :: ks, active, st =>
    let st2 := runHop csc nt replace directed g k st active
    runHops csc nt replace directed g ks
      ((st2.nodes.drop st.nodes.length).zip (st2.batch.drop st.batch.length)) st2

/-- The homogeneous per-call output (`SamplerOutput` of the source):
sampled nodes, edge endpoints as indices into the node list, original edge
identifiers via `perm`, optional per-node batch, and the seed count. -/
structure SamplerOutput where
  node : List Nat
  row : List Nat
  col : List Nat
  edge : List Nat
  batch : Option (List Nat)
  metadata : Nat
  deriving DecidableEq

/-- Modelled from the spec (sections 4.3 to 4.5): the native homogeneous
sampling operator (`pyg.neighbor_sample` / `torch_sparse.neighbor_sample`)
invoked by `NeighborSampler.sample` for `Data` inputs.  Runs the hop
schedule from the seeds and compacts the result: `row`/`col` are positions
in the node list, `edge` recovers original edge ids through `perm`. -/
def neighborSampleOp (csc : CSC) (seeds : List Nat) (nn : List Int)
    (nt : Option (List Nat)) (replace directed disjoint : Bool) (g : Nat → Nat) :
    SamplerOutput :=
  let st0 : SampleState := ⟨seeds, List.range seeds.length, []⟩
  let stF := runHops csc nt replace directed g nn (seeds.zip (List.range seeds.length)) st0
  { node := stF.nodes
    row := stF.edges.map (fun e => stF.nodes.indexOf e.1)
    col := stF.edges.map (fun e => stF.nodes.indexOf e.2.1)
    edge := stF.edges.map (fun e => csc.perm.getD e.2.2 0)
    batch := if disjoint then some stF.batch else none
    metadata := seeds.length }

/-! ## Homogeneous sampler dispatch (from the source) -/

/-- Errors raised by the dispatch code: Python `ValueError` and
`RuntimeError`. -/
inductive SampleError where
  | valueError (msg : String)
  | runtimeError (msg : String)
  deriving DecidableEq

/-- The sampler state built by `NeighborSampler.__init__` for a `Data`
input (source lines 49 to 57): CSC arrays, schedule, flags and optional
node times. -/
structure HomogSampler where
  csc : CSC
  num_neighbors : List Int
  replace : Bool
  directed : Bool
  node_time : Option (List Nat)
  deriving DecidableEq

/-- `NeighborSampler.sample` for `Data` inputs (source lines 236 to 278).
With the `pyg-lib` backend the native operator runs with
`disjoint := node_time is not None`; with the `torch-sparse` backend a
configured `time_attr` raises a `ValueError` before any sampling, and
otherwise the non-temporal operator runs with no batch output. -/
def HomogSampler.sample (s : HomogSampler) (withPygLib : Bool) (g : Nat → Nat)
    (index : List Nat) : Except SampleError SamplerOutput :=
  if withPygLib then
    let disjoint := s.node_time.isSome
    .ok (neighborSampleOp s.csc index s.num_neighbors s.node_time s.replace s.directed
      disjoint g)
  else if s.node_time.isSome then
    .error (.valueError "time_attr not supported for neighbor sampling via torch-sparse")
  else
    .ok (neighborSampleOp s.csc index s.num_neighbors none s.replace s.directed false g)

/-! ## Modelled heterogeneous traversal -/

/-- The joined-string relation key used for the cross-language dicts,
`'__'.join(key)` on an edge-type triplet (source lines 82 to 86). -/
def relKey (et : String × String × String) : String :=
  et.1 ++ "__" ++ et.2.1 ++ "__" ++ et.2.2

/-- `self.to_rel_type` from `NeighborSampler.__init__` (source line 82):
a dict from each edge-type triplet to its joined-string relation key. -/
def mk_to_rel_type (ets : List (String × String × String)) :
    List ((String × String × String) × String) :=
  dcomp ets (fun k => (k, relKey k))

/-- `self.to_edge_type` from `NeighborSampler.__init__` (source lines 83
to 86): a dict from each joined-string relation key back to its edge-type
triplet. -/
def mk_to_edge_type (ets : List (String × String × String)) :
    List (String × (String × String × String)) :=
  dcomp ets (fun k => (relKey k, k))

/-- Per-call heterogeneous traversal state: per-node-type visited nodes
and batch tags, and per-relation sampled edge triples
`(source, destination, CSC position)`. -/
structure HSampleState where
  nodes : List (String × List Nat)
  batch : List (String × List Nat)
  edges : List (String × List (Nat × Nat × Nat))
  deriving DecidableEq

/-- Modelled from the spec (section 4.3 step 3), heterogeneous case:
record the candidate's edge under relation `rel` and visit the neighbor in
the node list of type `nbType` unless already present. -/
def hVisitStep (cscEt : CSC) (rel nbType : String) (b : Nat) (st : HSampleState)
    (c : Nat × Nat × Nat) : HSampleState :=
  let st2 : HSampleState :=
    { st with edges := dappend1 st.edges rel (cscEt.row.getD c.2.1 0, c.2.2, c.2.1) }
  if c.1 ∈ dGetD st2.nodes nbType [] then st2
  else { st2 with nodes := dappend1 st2.nodes nbType c.1,
                  batch := dappend1 st2.batch nbType b }

/-- Modelled from the spec (section 4.3 step 2), heterogeneous case:
expand active node `nb.1` of type `dstT` through the in-edges of edge type
`(srcT, rel, dstT)`, with budget `k` and optional per-type node times. -/
def hExpandF (cscEt : CSC) (rel srcT dstT : String) (ntd : Option (List (String × List Nat)))
    (replace : Bool) (g : Nat → Nat) (k : Int) (st : HSampleState) (nb : Nat × Nat) :
    HSampleState :=
  let cand := (neighborRange cscEt nb.1).map (fun p => (cscEt.row.getD p 0, p, nb.1))
  let cand := match ntd with
    | some td => cand.filter
        (fun c => decide ((dGetD td srcT []).getD c.1 0 ≤ (dGetD td dstT []).getD nb.1 0))
    | none => cand
  (selectNeighbors g replace k cand).foldl (hVisitStep cscEt rel srcT nb.2) st

/-- Modelled from the spec (section 4.3 step 2), heterogeneous case with
`directed = false`: expand active node `nb.1` of type `srcT` through the
out-edges of edge type `(srcT, rel, dstT)`. -/
def hExpandR (cscEt : CSC) (rel srcT dstT : String) (ntd : Option (List (String × List Nat)))
    (replace : Bool) (g : Nat → Nat) (k : Int) (st : HSampleState) (nb : Nat × Nat) :
    HSampleState :=
  let cand := (outPositions cscEt nb.1).map (fun p => (colOf cscEt p, p, colOf cscEt p))
  let cand := match ntd with
    | some td => cand.filter
        (fun c => decide ((dGetD td dstT []).getD c.1 0 ≤ (dGetD td srcT []).getD nb.1 0))
    | none => cand
  (selectNeighbors g replace k cand).foldl (hVisitStep cscEt rel dstT nb.2) st

/-- Modelled from the spec (section 4.3), heterogeneous case: one hop.
For every edge type, active nodes of the destination type are expanded
through its in-edges (and, when `directed` is false, active nodes of the
source type through its out-edges) at this hop's per-edge-type budget. -/
def hRunHop (ets : List (String × String × String)) (cpd rd pd : List (String × List Nat))
    (ntd : Option (List (String × List Nat))) (replace directed : Bool) (g : Nat → Nat)
    (budFor : String → Int) (active : List (String × List (Nat × Nat))) (st : HSampleState) :
    HSampleState :=
  ets.foldl (fun st et =>
    let rel := relKey et
    let cscEt : CSC := ⟨dGetD cpd rel [], dGetD rd rel [], dGetD pd rel []⟩
    let st := (dGetD active et.2.2 []).foldl
      (hExpandF cscEt rel et.1 et.2.2 ntd replace g (budFor rel)) st
    if directed then st
    else (dGetD active et.1 []).foldl
      (hExpandR cscEt rel et.1 et.2.2 ntd replace g (budFor rel)) st) st

/-- The per-edge-type budget at hop `h`: entry `h` of the relation's
schedule, a missing hop acting as zero budget (spec section 3). -/
def budgetAt (nnd : List (String × List Int)) (rel : String) (h : Nat) : Int :=
  (dGetD nnd rel []).getD h 0

/-- Modelled from the spec (section 4.3 step 4), heterogeneous case: run
`fuel` remaining hops starting at hop index `h`; each hop's newly appended
nodes of each type form the next active set. -/
def hRunHops (nts : List String) (ets : List (String × String × String))
    (cpd rd pd : List (String × List Nat)) (ntd : Option (List (String × List Nat)))
    (replace directed : Bool) (g : Nat → Nat) (nnd : List (String × List Int)) :
    Nat → Nat → List (String × List (Nat × Nat)) → HSampleState → HSampleState
  | 0, _, _, st => st
  | fuel + 1, h, active, st =>
    let st2 := hRunHop ets cpd rd pd ntd replace directed g (fun rel => budgetAt nnd rel h)
      active st
    let newActive := nts.map (fun t =>
      (t, ((dGetD st2.nodes t []).drop (dGetD st.nodes t []).length).zip
        ((dGetD st2.batch t []).drop (dGetD st.batch t []).length)))
    hRunHops nts ets cpd rd pd ntd replace directed g nnd fuel (h + 1) newActive st2

/-- Build one per-relation output dict: one entry per edge type, keyed by
its joined relation key (used by the modelled heterogeneous operator's
output assembly). -/
def compactDict (ets : List (String × String × String))
    (F : (String × String × String) → List Nat) : List (String × List Nat) :=
  ets.foldl (fun d et => dinsert d (relKey et) (F et)) []

/-- The raw result of a native heterogeneous sampling operator, all dicts
keyed by the joined-string relation key (nodes and batches by node type). -/
structure HeteroOpResult where
  node : List (String × List Nat)
  row : List (String × List Nat)
  col : List (String × List Nat)
  edge : List (String × List Nat)
  batch : List (String × List Nat)
  deriving DecidableEq

/-- Modelled from the spec (sections 4.3 to 4.5): the native heterogeneous
sampling operator (`pyg.hetero_neighbor_sample_cpu` /
`torch_sparse.hetero_neighbor_sample` and its temporal variant).  Seeds of
each type are visited first (batch tags numbering them per type), the hop
schedule is run, and per-relation outputs are compacted: `row` indexes the
source-type node list, `col` the destination-type node list, and `edge`
recovers original edge ids through that relation's `perm`. -/
def heteroNeighborSampleOp (nts : List String) (ets : List (String × String × String))
    (cpd rd pd : List (String × List Nat)) (seed_dict : List (String × List Nat))
    (nnd : List (String × List Int)) (ntd : Option (List (String × List Nat)))
    (num_hops : Nat) (replace directed : Bool) (g : Nat → Nat) : HeteroOpResult :=
  let st0 : HSampleState :=
    ⟨seed_dict, seed_dict.map (fun kv => (kv.1, List.range kv.2.length)), []⟩
  let active0 := seed_dict.map (fun kv => (kv.1, kv.2.zip (List.range kv.2.length)))
  let stF := hRunHops nts ets cpd rd pd ntd replace directed g nnd num_hops 0 active0 st0
  { node := stF.nodes
    row := compactDict ets (fun et =>
      (dGetD stF.edges (relKey et) []).map
        (fun e => (dGetD stF.nodes et.1 []).indexOf e.1))
    col := compactDict ets (fun et =>
      (dGetD stF.edges (relKey et) []).map
        (fun e => (dGetD stF.nodes et.2.2 []).indexOf e.2.1))
    edge := compactDict ets (fun et =>
      (dGetD stF.edges (relKey et) []).map
        (fun e => (dGetD pd (relKey et) []).getD e.2.2 0))
    batch := stF.batch }

/-! ## Heterogeneous sampler dispatch (from the source) -/

/-- `_set_num_neighbors_and_num_hops` (source lines 153 to 158): a plain
list schedule is replicated into a per-edge-type dict. -/
def set_num_neighbors (ets : List (String × String × String)) (nn : List Int) :
    List ((String × String × String) × List Int) :=
  dcomp ets (fun k => (k, nn))

/-- `_set_num_neighbors_and_num_hops` (source lines 161 to 163):
`num_hops = max([0] + [len(v) for v in num_neighbors.values()])`. -/
def set_num_hops {K : Type} (nnd : List (K × List Int)) : Nat :=
  (nnd.map (fun kv => kv.2.length)).foldl Nat.max 0

/-- The sampler state built by `NeighborSampler.__init__` for a
`HeteroData` input (source lines 62 to 94): type metadata, per-relation
CSC dicts and schedule (already remapped to joined-string keys), flags,
optional per-type node times, the configured input type and the hop
count. -/
structure HeteroSampler where
  node_types : List String
  edge_types : List (String × String × String)
  replace : Bool
  directed : Bool
  node_time_dict : Option (List (String × List Nat))
  input_type : String
  colptr_dict : List (String × List Nat)
  row_dict : List (String × List Nat)
  perm_dict : List (String × List Nat)
  num_neighbors : List (String × List Int)
  num_hops : Nat
  deriving DecidableEq

/-- `self.to_rel_type` of a constructed sampler (source line 82). -/
def HeteroSampler.to_rel_type (s : HeteroSampler) :
    List ((String × String × String) × String) :=
  mk_to_rel_type s.edge_types

/-- `self.to_edge_type` of a constructed sampler (source lines 83 to 86). -/
def HeteroSampler.to_edge_type (s : HeteroSampler) :
    List (String × (String × String × String)) :=
  mk_to_edge_type s.edge_types

/-- The heterogeneous per-call output (`HeteroSamplerOutput` of the
source): node/batch dicts keyed by node type, row/col/edge dicts remapped
back to edge-type triplets, and the seed count. -/
structure HeteroSamplerOutput where
  node : List (String × List Nat)
  row : List ((String × String × String) × List Nat)
  col : List ((String × String × String) × List Nat)
  edge : List ((String × String × String) × List Nat)
  batch : Option (List (String × List Nat))
  metadata : Nat
  deriving DecidableEq

/-- `NeighborSampler.sample` for `HeteroData` (and custom-store) inputs
(source lines 173 to 234).  The seed dict is built by the method itself as
`seed_dict = (input_type : index)`.  With `pyg-lib` the native operator
runs with `disjoint := node_time_dict is not None` and the batch dict is
returned exactly when `disjoint`; with `torch-sparse` the temporal or
non-temporal operator runs and `batch` is always `None`.  The row/col/edge
dicts are remapped from joined-string keys back to edge-type triplets; a
missing mapping key would be a Python `KeyError`, modelled as an error. -/
def HeteroSampler.sample (s : HeteroSampler) (withPygLib : Bool) (g : Nat → Nat)
    (index : List Nat) : Except SampleError HeteroSamplerOutput :=
  let out := heteroNeighborSampleOp s.node_types s.edge_types s.colptr_dict s.row_dict
    s.perm_dict [(s.input_type, index)] s.num_neighbors s.node_time_dict s.num_hops
    s.replace s.directed g
  let disjoint := withPygLib && s.node_time_dict.isSome
  match remap_keys out.row s.to_edge_type, remap_keys out.col s.to_edge_type,
      remap_keys out.edge s.to_edge_type with
  | some r, some c, some e =>
    .ok { node := out.node, row := r, col := c, edge := e,
          batch := if disjoint then some out.batch else none,
          metadata := index.length }
  | _, _, _ => .error (.runtimeError "KeyError")

/-- `_hetero_sparse_neighbor_sample` (source lines 297 to 337): runs the
`torch-sparse` heterogeneous operator on a caller-supplied seed dict.
When node times are configured, the temporal operator is looked up first
and a missing operator (old `torch-sparse`) raises a `RuntimeError`
before any sampling. -/
def HeteroSampler.hetero_sparse_neighbor_sample (s : HeteroSampler) (hasTemporalOp : Bool)
    (g : Nat → Nat) (index_dict : List (String × List Nat)) :
    Except SampleError HeteroOpResult :=
  if s.node_time_dict.isNone then
    .ok (heteroNeighborSampleOp s.node_types s.edge_types s.colptr_dict s.row_dict
      s.perm_dict index_dict s.num_neighbors none s.num_hops s.replace s.directed g)
  else if hasTemporalOp then
    .ok (heteroNeighborSampleOp s.node_types s.edge_types s.colptr_dict s.row_dict
      s.perm_dict index_dict s.num_neighbors s.node_time_dict s.num_hops s.replace
      s.directed g)
  else
    .error (.runtimeError
      "the torch_sparse operator hetero_temporal_neighbor_sample was not found")

/-! ## Basic lemmas about the dict model -/

theorem dlookup_nil {K V : Type} [DecidableEq K] (k : K) :
    dlookup ([] : List (K × V)) k = none := rfl

theorem dlookup_cons {K V : Type} [DecidableEq K] (kv : K × V) (d : List (K × V)) (k2 : K) :
    dlookup (kv :: d) k2 = if kv.1 = k2 then some kv.2 else dlookup d k2 := by
  by_cases h : kv.1 = k2
  · simp [dlookup, List.find?_cons_of_pos, h]
  · simp only [if_neg h]
    unfold dlookup
    rw [List.find?_cons_of_neg _ (by simp [h])]

theorem dlookup_dinsert_self {K V : Type} [DecidableEq K] (d : List (K × V)) (k : K) (v : V) :
    dlookup (dinsert d k v) k = some v := by
  induction d with
  | nil => simp [dinsert, dlookup_cons, dlookup_nil]
  | cons kv d ih =>
    by_cases h : kv.1 = k
    · simp [dinsert, if_pos h, dlookup_cons]
    · simp [dinsert, if_neg h, dlookup_cons, h, ih]

theorem dlookup_dinsert_ne {K V : Type} [DecidableEq K] (d : List (K × V)) (k k2 : K) (v : V)
    (h : k2 ≠ k) : dlookup (dinsert d k v) k2 = dlookup d k2 := by
  induction d with
  | nil =>
    simp only [dinsert, dlookup_cons, dlookup_nil]
    exact if_neg (fun hh : k = k2 => h hh.symm)
  | cons kv d ih =>
    by_cases hk : kv.1 = k
    · rw [show dinsert (kv :: d) k v = (k, v) :: d from by simp [dinsert, if_pos hk]]
      rw [dlookup_cons, dlookup_cons]
      simp only [if_neg (fun hh : k = k2 => h hh.symm)]
      rw [hk] at *
      simp [if_neg (fun hh : k = k2 => h hh.symm)]
    · rw [show dinsert (kv :: d) k v = kv :: dinsert d k v from by simp [dinsert, if_neg hk]]
      rw [dlookup_cons, dlookup_cons, ih]

theorem mem_dinsert {K V : Type} [DecidableEq K] {d : List (K × V)} {k : K} {v : V}
    {kv2 : K × V} (h : kv2 ∈ dinsert d k v) : kv2.1 = k ∨ kv2 ∈ d := by
  induction d with
  | nil => simp [dinsert] at h; simp [h]
  | cons kv d ih =>
    by_cases hk : kv.1 = k
    · simp only [dinsert, if_pos hk, List.mem_cons] at h
      rcases h with h | h
      · exact Or.inl (by simp [h])
      · exact Or.inr (List.mem_cons_of_mem _ h)
    · simp only [dinsert, if_neg hk, List.mem_cons] at h
      rcases h with h | h
      · exact Or.inr (h ▸ List.mem_cons_self _ _)
      · rcases ih h with h2 | h2
        · exact Or.inl h2
        · exact Or.inr (List.mem_cons_of_mem _ h2)

theorem dinsert_of_fresh {K V : Type} [DecidableEq K] {d : List (K × V)} {k : K} (v : V)
    (h : ∀ kv ∈ d, kv.1 ≠ k) : dinsert d k v = d ++ [(k, v)] := by
  induction d with
  | nil => simp [dinsert]
  | cons kv d ih =>
    have hk : kv.1 ≠ k := h kv (List.mem_cons_self _ _)
    simp only [dinsert, if_neg hk, List.cons_append, List.cons.injEq, true_and]
    exact ih (fun kv2 h2 => h kv2 (List.mem_cons_of_mem _ h2))

/-! ## Lemmas about the selection policies -/

theorem sampleWoR_length {α : Type} [Inhabited α] (g : Nat → Nat) :
    ∀ (k : Nat) (cs : List α), (sampleWoR g k cs).length = min k cs.length := by
  intro k
  induction k with
  | zero => intro cs; simp [sampleWoR]
  | succ k ih =>
    intro cs
    cases cs with
    | nil => simp [sampleWoR]
    | cons a as =>
      have hlen : g k % (as.length + 1) < (a :: as).length := by
        simp only [List.length_cons]
        exact Nat.mod_lt _ (Nat.succ_pos _)
      simp only [sampleWoR, List.length_cons, ih, List.length_eraseIdx_of_lt hlen]
      omega

theorem sampleWoR_subset {α : Type} [Inhabited α] (g : Nat → Nat) :
    ∀ (k : Nat) (cs : List α), sampleWoR g k cs ⊆ cs := by
  intro k
  induction k with
  | zero => intro cs; simp [sampleWoR]
  | succ k ih =>
    intro cs
    cases cs with
    | nil => simp [sampleWoR]
    | cons a as =>
      have hlen : g k % (a :: as).length < (a :: as).length :=
        Nat.mod_lt _ (by simp)
      intro x hx
      simp only [sampleWoR, List.mem_cons] at hx
      rcases hx with hx | hx
      · rw [hx, List.getD_eq_getElem _ _ hlen]
        exact List.getElem_mem _
      · exact List.eraseIdx_subset _ _ (ih _ hx)

theorem getD_not_mem_eraseIdx {α : Type} [Inhabited α] :
    ∀ (l : List α) (i : Nat), i < l.length → l.Nodup → l.getD i default ∉ l.eraseIdx i := by
  intro l
  induction l with
  | nil => intro i hi; simp at hi
  | cons a as ih =>
    intro i hi hnd
    cases i with
    | zero =>
      simpa using (List.nodup_cons.1 hnd).1
    | succ i =>
      have hi2 : i < as.length := by simpa using hi
      have hnd2 := List.nodup_cons.1 hnd
      simp only [List.getD_cons_succ, List.eraseIdx_cons_succ, List.mem_cons, not_or]
      refine ⟨fun h => ?_, ih i hi2 hnd2.2⟩
      have : as.getD i default ∈ as := by
        rw [List.getD_eq_getElem _ _ hi2]; exact List.getElem_mem _
      exact hnd2.1 (h ▸ this)

theorem sampleWoR_nodup {α : Type} [Inhabited α] (g : Nat → Nat) :
    ∀ (k : Nat) (cs : List α), cs.Nodup → (sampleWoR g k cs).Nodup := by
  intro k
  induction k with
  | zero => intro cs _; simp [sampleWoR]
  | succ k ih =>
    intro cs hnd
    cases cs with
    | nil => simp [sampleWoR]
    | cons a as =>
      have hlen : g k % (a :: as).length < (a :: as).length :=
        Nat.mod_lt _ (by simp)
      simp only [sampleWoR, List.nodup_cons]
      refine ⟨fun h => ?_, ih _ (((a :: as).eraseIdx_sublist _).nodup hnd)⟩
      exact getD_not_mem_eraseIdx _ _ hlen hnd (sampleWoR_subset g k _ h)

theorem sampleWR_length {α : Type} [Inhabited α] (g : Nat → Nat) (k : Nat) (cs : List α) :
    (sampleWR g k cs).length = if cs.isEmpty then 0 else k := by
  by_cases h : cs.isEmpty <;> simp [sampleWR, h]

theorem sampleWR_subset {α : Type} [Inhabited α] (g : Nat → Nat) (k : Nat) (cs : List α) :
    sampleWR g k cs ⊆ cs := by
  intro x hx
  unfold sampleWR at hx
  split at hx
  · simp at hx
  · next hne =>
    obtain ⟨j, _, rfl⟩ := List.mem_map.1 hx
    have hpos : 0 < cs.length := by
      cases cs with
      | nil => simp at hne
      | cons b bs => simp
    rw [List.getD_eq_getElem _ _ (Nat.mod_lt _ hpos)]
    exact List.getElem_mem _

theorem selectNeighbors_subset {α : Type} [Inhabited α] (g : Nat → Nat) (replace : Bool)
    (k : Int) (cs : List α) : selectNeighbors g replace k cs ⊆ cs := by
  unfold selectNeighbors
  split
  · exact fun x h => h
  · split
    · exact sampleWR_subset g _ cs
    · exact sampleWoR_subset g _ cs

theorem selectNeighbors_zero {α : Type} [Inhabited α] (g : Nat → Nat) (replace : Bool)
    (cs : List α) : selectNeighbors g replace 0 cs = [] := by
  unfold selectNeighbors
  rw [if_neg (by decide)]
  split
  · simp [sampleWR, Int.toNat_zero]
  · rfl

/-! ## Claim C2: without replacement -/

/-- C2: for every node active at a hop with budget `k ≥ 0` and
`replace = false`, the modelled selection picks exactly
`min(k, number of candidates)` candidates, all drawn from the candidate
pool and pairwise distinct whenever the pool is duplicate-free; in
particular a pool smaller than `k` is taken whole.  The selection is a
total function, so exhaustion never raises. -/
theorem selection_without_replacement_min (g : Nat → Nat) (k : Int) (hk : 0 ≤ k)
    (cs : List (Nat × Nat × Nat)) :
    (selectNeighbors g false k cs).length = min k.toNat cs.length ∧
    selectNeighbors g false k cs ⊆ cs ∧
    (cs.Nodup → (selectNeighbors g false k cs).Nodup) := by
  have he : selectNeighbors g false k cs = sampleWoR g k.toNat cs := by
    unfold selectNeighbors
    rw [if_neg (by omega : ¬ k < 0)]
    simp
  refine ⟨?_, ?_, ?_⟩
  · rw [he]; exact sampleWoR_length g _ cs
  · rw [he]; exact sampleWoR_subset g _ cs
  · intro h; rw [he]; exact sampleWoR_nodup g _ cs h

/-- Witness for C2: budget 5 on a two-candidate pool takes both candidates. -/
theorem selection_without_replacement_min_witness :
    (0 : Int) ≤ 5 ∧
    ((selectNeighbors (fun i => i) false 5 ([(1, 2, 3), (4, 5, 6)] :
        List (Nat × Nat × Nat))).length =
      min (Int.toNat 5) ([(1, 2, 3), (4, 5, 6)] : List (Nat × Nat × Nat)).length ∧
    selectNeighbors (fun i => i) false 5 ([(1, 2, 3), (4, 5, 6)] :
        List (Nat × Nat × Nat)) ⊆ [(1, 2, 3), (4, 5, 6)] ∧
    (([(1, 2, 3), (4, 5, 6)] : List (Nat × Nat × Nat)).Nodup →
      (selectNeighbors (fun i => i) false 5 ([(1, 2, 3), (4, 5, 6)] :
        List (Nat × Nat × Nat))).Nodup)) :=
  ⟨by decide, selection_without_replacement_min (fun i => i) 5 (by decide) [(1, 2, 3), (4, 5, 6)]⟩

/-! ## Claim C3: with replacement -/

/-- C3: for every node active at a hop with budget `k > 0` and
`replace = true`, the modelled selection picks exactly `k` candidates when
the candidate pool is non-empty (repetition allowed), and zero when the
pool is empty. -/
theorem selection_with_replacement_exact (g : Nat → Nat) (k : Int) (hk : 0 < k)
    (cs : List (Nat × Nat × Nat)) :
    (selectNeighbors g true k cs).length = if cs.isEmpty then 0 else k.toNat := by
  have he : selectNeighbors g true k cs = sampleWR g k.toNat cs := by
    unfold selectNeighbors
    rw [if_neg (by omega : ¬ k < 0)]
    simp
  rw [he]
  exact sampleWR_length g _ cs

/-- Witness for C3: budget 3 yields 3 picks on a singleton pool and 0 picks
on an empty pool. -/
theorem selection_with_replacement_exact_witness :
    (0 : Int) < 3 ∧
    (selectNeighbors (fun i => i) true 3 ([(1, 1, 1)] : List (Nat × Nat × Nat))).length =
      (if ([(1, 1, 1)] : List (Nat × Nat × Nat)).isEmpty then 0 else Int.toNat 3) ∧
    (selectNeighbors (fun i => i) true 3 ([] : List (Nat × Nat × Nat))).length =
      (if ([] : List (Nat × Nat × Nat)).isEmpty then 0 else Int.toNat 3) :=
  ⟨by decide, selection_with_replacement_exact (fun i => i) 3 (by decide) [(1, 1, 1)],
    selection_with_replacement_exact (fun i => i) 3 (by decide) []⟩

/-! ## Claim C4: temporal causality -/

theorem visitStep_edges (csc : CSC) (b : Nat) (st : SampleState) (c : Nat × Nat × Nat) :
    (visitStep csc b st c).edges = st.edges ++ [(csc.row.getD c.2.1 0, c.2.2, c.2.1)] := by
  simp only [visitStep]
  split <;> rfl

theorem foldl_visitStep_edges (csc : CSC) (b : Nat) (P : Nat × Nat × Nat → Prop) :
    ∀ (sel : List (Nat × Nat × Nat)) (st : SampleState),
      (∀ c ∈ sel, P (csc.row.getD c.2.1 0, c.2.2, c.2.1)) →
      ∀ e ∈ (sel.foldl (visitStep csc b) st).edges, e ∈ st.edges ∨ P e := by
  intro sel
  induction sel with
  | nil => intro st _ e he; exact Or.inl he
  | cons c sel ih =>
    intro st hsel e he
    simp only [List.foldl_cons] at he
    rcases ih (visitStep csc b st c) (fun c2 h2 => hsel c2 (List.mem_cons_of_mem _ h2))
        e he with h | h
    · rw [visitStep_edges] at h
      rcases List.mem_append.1 h with h | h
      · exact Or.inl h
      · simp only [List.mem_singleton] at h
        exact Or.inr (h ▸ hsel c (List.mem_cons_self _ _))
    · exact Or.inr h

theorem candidatesOf_src (csc : CSC) (directed : Bool) (n : Nat) :
    ∀ c ∈ candidatesOf csc directed n,
      c.1 = csc.row.getD c.2.1 0 ∨ csc.row.getD c.2.1 0 = n := by
  intro c hc
  unfold candidatesOf at hc
  rcases List.mem_append.1 hc with h | h
  · obtain ⟨p, _, rfl⟩ := List.mem_map.1 h
    exact Or.inl rfl
  · split at h
    · simp at h
    · obtain ⟨p, hp, rfl⟩ := List.mem_map.1 h
      obtain ⟨_, hpn⟩ := List.mem_filter.1 hp
      exact Or.inr (by simpa using hpn)

theorem mem_applyTimeFilter_le (t : List Nat) (n : Nat) (cs : List (Nat × Nat × Nat)) :
    ∀ c ∈ applyTimeFilter (some t) n cs, t.getD c.1 0 ≤ t.getD n 0 ∧ c ∈ cs := by
  intro c hc
  simp only [applyTimeFilter] at hc
  obtain ⟨h1, h2⟩ := List.mem_filter.1 hc
  exact ⟨by simpa using h2, h1⟩

/-- C4: when a node-time constraint is active, every edge recorded while
expanding an active node `n` (beyond the edges already in the state) has a
source whose timestamp is at most `n`'s timestamp: no sampled edge lets
information flow from the future into `n`. -/
theorem temporal_edges_respect_time (csc : CSC) (nt : List Nat) (replace directed : Bool)
    (g : Nat → Nat) (k : Int) (n b : Nat) (st : SampleState) :
    ∀ e ∈ (expandOne csc (some nt) replace directed g k st (n, b)).edges,
      e ∈ st.edges ∨ nt.getD e.1 0 ≤ nt.getD n 0 := by
  intro e he
  unfold expandOne at he
  refine foldl_visitStep_edges csc b (fun e2 => nt.getD e2.1 0 ≤ nt.getD n 0) _ st ?_ e he
  intro c hc
  have hsel := selectNeighbors_subset g replace k _ hc
  obtain ⟨hle, hcand⟩ := mem_applyTimeFilter_le nt n _ c hsel
  rcases candidatesOf_src csc directed n c hcand with h | h
  · rw [← h]; exact hle
  · rw [h]

/-- Constant randomness oracle for concrete evaluations. -/
def gZero : Nat → Nat := fun _ => 0

/-- The 4-node chain graph 0 to 1 to 2 to 3 in CSC form, with strictly
increasing node timestamps (the spec's temporal test scenario). -/
def cscChain : CSC := ⟨[0, 0, 1, 2, 3], [0, 1, 2], [0, 1, 2]⟩

/-- Timestamps for `cscChain`. -/
def ntChain : List Nat := [0, 1, 2, 3]

/-- Witness for C4: expanding the latest node 3 of the timestamped chain
records the edge from node 2 at CSC position 2, whose source time 2 is at
most node 3's time 3. -/
theorem temporal_edges_respect_time_witness :
    (2, 3, 2) ∈ (⟨[3], [0], []⟩ : SampleState).edges ∨
      ntChain.getD 2 0 ≤ ntChain.getD 3 0 :=
  temporal_edges_respect_time cscChain ntChain false true gZero 2 3 0 ⟨[3], [0], []⟩
    (2, 3, 2) (by decide)

/-! ## Claim C5: temporal sampling on an unsupported backend fails eagerly -/

/-- C5: requesting temporal sampling on a configuration that cannot
support it fails explicitly before any traversal: a homogeneous sampler
with node times on the `torch-sparse` backend raises a `ValueError`
(source lines 257 to 260), and `_hetero_sparse_neighbor_sample` with node
times but no temporal operator available raises a `RuntimeError` (source
lines 315 to 323).  In both cases the error is returned instead of any
sampling result, so the time constraint is never silently dropped. -/
theorem temporal_unsupported_fails (s : HomogSampler) (hs : HeteroSampler)
    (g g2 : Nat → Nat) (index : List Nat) (index_dict : List (String × List Nat))
    (h1 : s.node_time.isSome = true) (h2 : hs.node_time_dict.isSome = true) :
    s.sample false g index =
      .error (.valueError "time_attr not supported for neighbor sampling via torch-sparse") ∧
    hs.hetero_sparse_neighbor_sample false g2 index_dict =
      .error (.runtimeError
        "the torch_sparse operator hetero_temporal_neighbor_sample was not found") := by
  constructor
  · simp [HomogSampler.sample, h1]
  · have h3 : hs.node_time_dict.isNone = false := by
      cases hnd : hs.node_time_dict with
      | none => rw [hnd] at h2; simp at h2
      | some v => simp
    simp [HeteroSampler.hetero_sparse_neighbor_sample, h3]

/-- A homogeneous sampler with node times configured (for witnesses). -/
def sTempHomog : HomogSampler :=
  { csc := cscChain, num_neighbors := [2], replace := false, directed := true,
    node_time := some ntChain }

/-- A one-node-type heterogeneous sampler with node times configured. -/
def sTempHetero : HeteroSampler :=
  { node_types := ["v"], edge_types := [("v", "r", "v")], replace := false,
    directed := true, node_time_dict := some [("v", [5])], input_type := "v",
    colptr_dict := [("v__r__v", [0, 0])], row_dict := [("v__r__v", [])],
    perm_dict := [("v__r__v", [])], num_neighbors := [("v__r__v", [1])], num_hops := 1 }

/-- Witness for C5 at the concrete temporal samplers. -/
theorem temporal_unsupported_fails_witness :
    sTempHomog.node_time.isSome = true ∧ sTempHetero.node_time_dict.isSome = true ∧
    (sTempHomog.sample false gZero [0] =
      .error (.valueError "time_attr not supported for neighbor sampling via torch-sparse") ∧
    sTempHetero.hetero_sparse_neighbor_sample false gZero [("v", [0])] =
      .error (.runtimeError
        "the torch_sparse operator hetero_temporal_neighbor_sample was not found")) :=
  ⟨rfl, rfl,
    temporal_unsupported_fails sTempHomog sTempHetero gZero gZero [0] [("v", [0])] rfl rfl⟩

/-! ## Claim C9: schedule alignment and zero budget for missing hops -/

theorem le_foldl_max (L : List Nat) : ∀ a : Nat, a ≤ L.foldl Nat.max a := by
  induction L with
  | nil => intro a; exact le_refl a
  | cons x L ih =>
    intro a
    exact le_trans (Nat.le_max_left a x) (ih (Nat.max a x))

theorem mem_le_foldl_max (L : List Nat) : ∀ (a x : Nat), x ∈ L → x ≤ L.foldl Nat.max a := by
  induction L with
  | nil => intro a x hx; simp at hx
  | cons y L ih =>
    intro a x hx
    rcases List.mem_cons.1 hx with h | h
    · subst h
      exact le_trans (Nat.le_max_right a x) (le_foldl_max L (Nat.max a x))
    · exact ih (Nat.max a y) x h

theorem foldl_max_cases (L : List Nat) :
    ∀ a : Nat, L.foldl Nat.max a = a ∨ L.foldl Nat.max a ∈ L := by
  induction L with
  | nil => intro a; exact Or.inl rfl
  | cons x L ih =>
    intro a
    rcases ih (Nat.max a x) with h | h
    · rw [List.foldl_cons, h]
      have hm : a.max x = a ∨ a.max x = x := max_choice a x
      rcases hm with h2 | h2
      · exact Or.inl h2
      · rw [h2]
        exact Or.inr (List.mem_cons_self _ _)
    · exact Or.inr (List.mem_cons_of_mem _ h)

/-- C9: the heterogeneous hop count is the maximum schedule length over
all edge types (`max([0] + lens)`, so 0 for an empty schedule dict, source
lines 161 to 163), and a hop at or beyond an edge type's schedule length
has budget 0, at which the modelled per-node expansion along that edge
type adds nothing: no further expansion along that edge type at that
hop. -/
theorem schedules_aligned_missing_hop_zero
    (nndK : List ((String × String × String) × List Int))
    (nnd : List (String × List Int)) (rel : String) (h : Nat)
    (hlen : (dGetD nnd rel []).length ≤ h)
    (cscEt : CSC) (srcT dstT : String) (ntd : Option (List (String × List Nat)))
    (replace : Bool) (g : Nat → Nat) (st : HSampleState) (nb : Nat × Nat) :
    (∀ kv ∈ nndK, kv.2.length ≤ set_num_hops nndK) ∧
    (set_num_hops nndK = 0 ∨ ∃ kv ∈ nndK, kv.2.length = set_num_hops nndK) ∧
    (nndK = [] → set_num_hops nndK = 0) ∧
    budgetAt nnd rel h = 0 ∧
    hExpandF cscEt rel srcT dstT ntd replace g (budgetAt nnd rel h) st nb = st ∧
    hExpandR cscEt rel srcT dstT ntd replace g (budgetAt nnd rel h) st nb = st := by
  have hbud : budgetAt nnd rel h = 0 := by
    unfold budgetAt
    exact List.getD_eq_default _ _ hlen
  refine ⟨?_, ?_, ?_, hbud, ?_, ?_⟩
  · intro kv hkv
    exact mem_le_foldl_max _ 0 _ (List.mem_map_of_mem _ hkv)
  · rcases foldl_max_cases (nndK.map (fun kv => kv.2.length)) 0 with h2 | h2
    · exact Or.inl h2
    · obtain ⟨kv, hkv, hval⟩ := List.mem_map.1 h2
      exact Or.inr ⟨kv, hkv, hval⟩
  · intro h2; subst h2; rfl
  · rw [hbud]
    simp only [hExpandF, selectNeighbors_zero, List.foldl_nil]
  · rw [hbud]
    simp only [hExpandR, selectNeighbors_zero, List.foldl_nil]

/-- Witness for C9: a two-relation schedule dict with lengths 2 and 1 has
hop count 2, and hop 5 is beyond the one-entry schedule of relation
`v__r__v`, so its budget is 0 and the expansion is the identity. -/
theorem schedules_aligned_missing_hop_zero_witness :
    (dGetD [("v__r__v", [(1 : Int)])] "v__r__v" []).length ≤ 5 ∧
    ((∀ kv ∈ [(("v", "r", "v"), [(2 : Int), 3]), (("v", "s", "v"), [4])],
        kv.2.length ≤ set_num_hops [(("v", "r", "v"), [(2 : Int), 3]), (("v", "s", "v"), [4])]) ∧
    (set_num_hops [(("v", "r", "v"), [(2 : Int), 3]), (("v", "s", "v"), [4])] = 0 ∨
      ∃ kv ∈ [(("v", "r", "v"), [(2 : Int), 3]), (("v", "s", "v"), [4])],
        kv.2.length = set_num_hops [(("v", "r", "v"), [(2 : Int), 3]), (("v", "s", "v"), [4])]) ∧
    ([(("v", "r", "v"), [(2 : Int), 3]), (("v", "s", "v"), [4])] = [] →
      set_num_hops [(("v", "r", "v"), [(2 : Int), 3]), (("v", "s", "v"), [4])] = 0) ∧
    budgetAt [("v__r__v", [(1 : Int)])] "v__r__v" 5 = 0 ∧
    hExpandF cscChain "v__r__v" "v" "v" none false gZero
      (budgetAt [("v__r__v", [(1 : Int)])] "v__r__v" 5) ⟨[], [], []⟩ (0, 0) = ⟨[], [], []⟩ ∧
    hExpandR cscChain "v__r__v" "v" "v" none false gZero
      (budgetAt [("v__r__v", [(1 : Int)])] "v__r__v" 5) ⟨[], [], []⟩ (0, 0) = ⟨[], [], []⟩) :=
  ⟨by decide,
    schedules_aligned_missing_hop_zero
      [(("v", "r", "v"), [(2 : Int), 3]), (("v", "s", "v"), [4])]
      [("v__r__v", [(1 : Int)])] "v__r__v" 5 (by decide) cscChain "v" "v" none false gZero
      ⟨[], [], []⟩ (0, 0)⟩

/-! ## Claim C6: seed type versus configured input type -/

/-- A heterogeneous sampler configured with input type `paper` and no node
times (for the seed-type claims). -/
def sPaper : HeteroSampler :=
  { node_types := ["paper", "author"], edge_types := [("paper", "cites", "paper")],
    replace := false, directed := true, node_time_dict := none, input_type := "paper",
    colptr_dict := [("paper__cites__paper", [0, 1])],
    row_dict := [("paper__cites__paper", [0])],
    perm_dict := [("paper__cites__paper", [0])],
    num_neighbors := [("paper__cites__paper", [1])], num_hops := 1 }

/-- C6 counterexample: supplying seeds of type `author` to a sampler whose
configured input type is `paper` does not fail: the typed-seed entry point
`_hetero_sparse_neighbor_sample` performs no seed-type check and returns a
result, so no `TypeMismatch` error is surfaced. -/
theorem seed_type_mismatch_not_rejected :
    "author" ≠ sPaper.input_type ∧
    (sPaper.hetero_sparse_neighbor_sample true gZero
      [("author", [0])]).toOption.isSome = true := by
  exact ⟨by decide, by decide⟩

/-- C6 amended: the sampler performs no seed-type check at all.  `sample`
takes an untyped index and keys it by the configured input type itself,
and `_hetero_sparse_neighbor_sample` passes any caller-supplied seed dict
to the backend unchecked: whenever the temporal-operator requirement is
met, the call returns a result for every seed dict, matching or not, and
no `TypeMismatch` error exists. -/
theorem no_seed_type_check (s : HeteroSampler) (hasTemporalOp : Bool) (g : Nat → Nat)
    (index_dict : List (String × List Nat))
    (h : s.node_time_dict.isSome = true → hasTemporalOp = true) :
    (s.hetero_sparse_neighbor_sample hasTemporalOp g index_dict).toOption.isSome = true := by
  unfold HeteroSampler.hetero_sparse_neighbor_sample
  cases hnd : s.node_time_dict with
  | none => simp [Except.toOption]
  | some v =>
    have hop : hasTemporalOp = true := h (by rw [hnd]; rfl)
    simp [hop, Except.toOption]

/-- Witness for C6's amended claim at a mismatched concrete seed dict. -/
theorem no_seed_type_check_witness :
    (sPaper.node_time_dict.isSome = true → true = true) ∧
    (sPaper.hetero_sparse_neighbor_sample true gZero
      [("author", [0])]).toOption.isSome = true :=
  ⟨fun _ => rfl, no_seed_type_check sPaper true gZero [("author", [0])] (fun _ => rfl)⟩

/-! ## Claim C10: joined-string key round trip -/

theorem dlookup_foldl_dinsert_stable {A K V : Type} [DecidableEq K] (f : A → K × V) :
    ∀ (ks : List A) (d0 : List (K × V)) (k : K) (v : V),
      (∀ c ∈ ks, (f c).1 = k → (f c).2 = v) →
      dlookup d0 k = some v →
      dlookup (ks.foldl (fun d a => dinsert d (f a).1 (f a).2) d0) k = some v := by
  intro ks
  induction ks with
  | nil => intro d0 k v _ h0; exact h0
  | cons c ks ih =>
    intro d0 k v hf h0
    simp only [List.foldl_cons]
    apply ih _ k v (fun c2 h2 => hf c2 (List.mem_cons_of_mem _ h2))
    by_cases hk : (f c).1 = k
    · rw [hk, dlookup_dinsert_self, hf c (List.mem_cons_self _ _) hk]
    · rw [dlookup_dinsert_ne _ _ _ _ (fun hh => hk hh.symm)]
      exact h0

theorem dlookup_dcomp {A K V : Type} [DecidableEq K] (f : A → K × V) (ks : List A)
    (hf : ∀ c ∈ ks, ∀ a ∈ ks, (f c).1 = (f a).1 → (f c).2 = (f a).2) :
    ∀ a ∈ ks, dlookup (dcomp ks f) (f a).1 = some (f a).2 := by
  suffices hgen : ∀ (ks2 : List A),
      (∀ c ∈ ks2, ∀ a ∈ ks2, (f c).1 = (f a).1 → (f c).2 = (f a).2) →
      ∀ (d0 : List (K × V)), ∀ a ∈ ks2,
        dlookup (ks2.foldl (fun d a => dinsert d (f a).1 (f a).2) d0) (f a).1 =
          some (f a).2 by
    exact fun a ha => hgen ks hf [] a ha
  intro ks2
  induction ks2 with
  | nil => intro _ d0 a ha; simp at ha
  | cons b ks2 ih =>
    intro hf2 d0 a ha
    simp only [List.foldl_cons]
    rcases List.mem_cons.1 ha with h | h
    · subst h
      apply dlookup_foldl_dinsert_stable f ks2 _ _ _
        (fun c hc hkey => hf2 c (List.mem_cons_of_mem _ hc) a (List.mem_cons_self _ _) hkey)
      exact dlookup_dinsert_self _ _ _
    · exact ih (fun c hc a2 ha2 =>
        hf2 c (List.mem_cons_of_mem _ hc) a2 (List.mem_cons_of_mem _ ha2)) _ a h

theorem remap_keys_eq_map {K K2 V : Type} [DecidableEq K] [DecidableEq K2]
    (m : List (K × K2)) (f : K → K2) :
    ∀ (d : List (K × V)) (d0 : List (K2 × V)),
      (∀ kv ∈ d, dlookup m kv.1 = some (f kv.1)) →
      (∀ kv ∈ d, ∀ kv0 ∈ d0, kv0.1 ≠ f kv.1) →
      (d.map (fun kv => f kv.1)).Nodup →
      d.foldl (fun acc kv =>
        match acc, dlookup m kv.1 with
        | some d, some k2 => some (dinsert d k2 kv.2)
        | _, _ => none) (some d0) = some (d0 ++ d.map (fun kv => (f kv.1, kv.2))) := by
  intro d
  induction d with
  | nil => intro d0 _ _ _; simp
  | cons kv d ih =>
    intro d0 hlook hfresh hnd
    rw [List.map_cons, List.nodup_cons] at hnd
    simp only [List.foldl_cons, hlook kv (List.mem_cons_self _ _)]
    have hins : dinsert d0 (f kv.1) kv.2 = d0 ++ [(f kv.1, kv.2)] :=
      dinsert_of_fresh _ (fun kv0 h0 => hfresh kv (List.mem_cons_self _ _) kv0 h0)
    rw [hins]
    have hl : ∀ kv2 ∈ d, dlookup m kv2.1 = some (f kv2.1) :=
      fun kv2 h2 => hlook kv2 (List.mem_cons_of_mem _ h2)
    have hf2 : ∀ kv2 ∈ d, ∀ kv0 ∈ d0 ++ [(f kv.1, kv.2)], kv0.1 ≠ f kv2.1 := by
      intro kv2 h2 kv0 h0
      rcases List.mem_append.1 h0 with h0 | h0
      · exact hfresh kv2 (List.mem_cons_of_mem _ h2) kv0 h0
      · simp only [List.mem_singleton] at h0
        subst h0
        intro hcontra
        refine hnd.1 ?_
        rw [show f kv.1 = f kv2.1 from hcontra]
        exact List.mem_map_of_mem _ h2
    rw [ih _ hl hf2 hnd.2]
    simp

theorem remap_keys_map_eq {K K2 V : Type} [DecidableEq K] [DecidableEq K2]
    (m : List (K × K2)) (f : K → K2) (d : List (K × V))
    (hlook : ∀ kv ∈ d, dlookup m kv.1 = some (f kv.1))
    (hnd : (d.map (fun kv => f kv.1)).Nodup) :
    remap_keys d m = some (d.map (fun kv => (f kv.1, kv.2))) := by
  unfold remap_keys
  have h := remap_keys_eq_map m f d [] hlook (by intro kv _ kv0 h0; simp at h0) hnd
  simpa using h

/-- C10 amended: remapping a dict keyed by the sampler's edge types
through `to_rel_type` and then through `to_edge_type` is the identity
provided the joined-string relation keys of the edge types are pairwise
distinct (no type component may smuggle a `__` separator that makes two
triplets collide); the dict's keys are distinct and drawn from the edge
types, as for every dict the sampler produces. -/
theorem remap_roundtrip_identity (ets : List (String × String × String))
    (d : List ((String × String × String) × List Nat))
    (hinj : (ets.map relKey).Nodup)
    (hkeys : ∀ kv ∈ d, kv.1 ∈ ets)
    (hnd : (d.map Prod.fst).Nodup) :
    (remap_keys d (mk_to_rel_type ets)).bind
      (fun d2 => remap_keys d2 (mk_to_edge_type ets)) = some d := by
  have hinj2 : ∀ x ∈ ets, ∀ y ∈ ets, relKey x = relKey y → x = y :=
    List.inj_on_of_nodup_map hinj
  have hfstinj : ∀ x ∈ d, ∀ y ∈ d, x.1 = y.1 → x = y :=
    List.inj_on_of_nodup_map hnd
  have hdnd : d.Nodup := List.Nodup.of_map _ hnd
  -- lookup facts for both direction dicts
  have hlook1 : ∀ kv ∈ d, dlookup (mk_to_rel_type ets) kv.1 = some (relKey kv.1) := by
    intro kv hkv
    exact dlookup_dcomp (fun k => (k, relKey k)) ets
      (fun c _ a _ h => congrArg relKey h) kv.1 (hkeys kv hkv)
  have hrel : ∀ kv ∈ d, dlookup (mk_to_edge_type ets) (relKey kv.1) = some kv.1 := by
    intro kv hkv
    exact dlookup_dcomp (fun k => (relKey k, k)) ets
      (fun c hc a ha h => hinj2 c hc a ha h) kv.1 (hkeys kv hkv)
  -- first remap
  have hmapnd1 : (d.map (fun kv => relKey kv.1)).Nodup := by
    refine List.Nodup.map_on ?_ hdnd
    intro x hx y hy hxy
    exact hfstinj x hx y hy (hinj2 x.1 (hkeys x hx) y.1 (hkeys y hy) hxy)
  have h1 : remap_keys d (mk_to_rel_type ets) =
      some (d.map (fun kv => (relKey kv.1, kv.2))) :=
    remap_keys_map_eq _ relKey d hlook1 hmapnd1
  rw [h1]
  show remap_keys (d.map (fun kv => (relKey kv.1, kv.2))) (mk_to_edge_type ets) = some d
  -- second remap
  have hlook2 : ∀ kv2 ∈ d.map (fun kv => (relKey kv.1, kv.2)),
      dlookup (mk_to_edge_type ets) kv2.1 =
        some ((dlookup (mk_to_edge_type ets) kv2.1).getD ("", "", "")) := by
    intro kv2 h2
    obtain ⟨kv, hkv, rfl⟩ := List.mem_map.1 h2
    rw [hrel kv hkv]
    rfl
  have hmapnd2 : ((d.map (fun kv => (relKey kv.1, kv.2))).map
      (fun kv2 => (dlookup (mk_to_edge_type ets) kv2.1).getD ("", "", ""))).Nodup := by
    have he : (d.map (fun kv => (relKey kv.1, kv.2))).map
        (fun kv2 => (dlookup (mk_to_edge_type ets) kv2.1).getD ("", "", "")) =
        d.map Prod.fst := by
      rw [List.map_map]
      apply List.map_congr_left
      intro kv hkv
      simp only [Function.comp]
      rw [hrel kv hkv]
      rfl
    rw [he]
    exact hnd
  have h2 := remap_keys_map_eq (mk_to_edge_type ets)
    (fun s => (dlookup (mk_to_edge_type ets) s).getD ("", "", ""))
    (d.map (fun kv => (relKey kv.1, kv.2))) hlook2 hmapnd2
  rw [h2]
  congr 1
  rw [List.map_map]
  have : d = d.map id := (List.map_id d).symm
  conv_rhs => rw [this]
  apply List.map_congr_left
  intro kv hkv
  simp only [Function.comp, id]
  rw [hrel kv hkv]
  rfl

/-- Edge types whose joined relation keys collide: both triplets join to
`a__b__c__d`. -/
def etsAmbiguous : List (String × String × String) :=
  [("a", "b__c", "d"), ("a__b", "c", "d")]

/-- A dict keyed by the first of the colliding edge types. -/
def dAmbiguous : List ((String × String × String) × List Nat) :=
  [(("a", "b__c", "d"), [42])]

/-- C10 counterexample: with edge types whose components contain the `__`
separator, `to_edge_type` maps the shared joined key to the last triplet,
so remapping through `to_rel_type` and back through `to_edge_type` is not
the identity on dicts keyed by the sampler's edge types. -/
theorem remap_roundtrip_not_identity :
    (remap_keys dAmbiguous (mk_to_rel_type etsAmbiguous)).bind
      (fun d2 => remap_keys d2 (mk_to_edge_type etsAmbiguous)) ≠ some dAmbiguous := by
  decide

/-- Witness for C10's amended claim on collision-free edge types. -/
theorem remap_roundtrip_identity_witness :
    (([("v", "r", "v"), ("v", "s", "w")].map relKey).Nodup) ∧
    ((remap_keys [((("v", "r", "v") : String × String × String), ([7] : List Nat))]
        (mk_to_rel_type [("v", "r", "v"), ("v", "s", "w")])).bind
      (fun d2 => remap_keys d2 (mk_to_edge_type [("v", "r", "v"), ("v", "s", "w")])) =
      some [((("v", "r", "v") : String × String × String), ([7] : List Nat))]) :=
  ⟨by decide, remap_roundtrip_identity [("v", "r", "v"), ("v", "s", "w")]
    [(("v", "r", "v"), [7])] (by decide) (by decide) (by decide)⟩

/-! ## Claim C7: disjoint batch mode versus temporal sampling -/

theorem mem_foldl_dinsert {A K V : Type} [DecidableEq K] (key : A → K) (F : A → V) :
    ∀ (ets : List A) (d0 : List (K × V)) (kv : K × V),
      kv ∈ ets.foldl (fun d et => dinsert d (key et) (F et)) d0 →
      kv ∈ d0 ∨ ∃ et ∈ ets, kv.1 = key et := by
  intro ets
  induction ets with
  | nil => intro d0 kv h; exact Or.inl h
  | cons et ets ih =>
    intro d0 kv h
    simp only [List.foldl_cons] at h
    rcases ih _ kv h with h2 | h2
    · rcases mem_dinsert h2 with h3 | h3
      · exact Or.inr ⟨et, List.mem_cons_self _ _, h3⟩
      · exact Or.inl h3
    · obtain ⟨et2, h3, h4⟩ := h2
      exact Or.inr ⟨et2, List.mem_cons_of_mem _ h3, h4⟩

theorem dlookup_foldl_dinsert_isSome {A K V : Type} [DecidableEq K] (key : A → K)
    (F : A → V) :
    ∀ (ets : List A) (d0 : List (K × V)) (k : K),
      ((dlookup d0 k).isSome = true ∨ ∃ et ∈ ets, key et = k) →
      (dlookup (ets.foldl (fun d et => dinsert d (key et) (F et)) d0) k).isSome = true := by
  intro ets
  induction ets with
  | nil =>
    intro d0 k h
    rcases h with h | ⟨et, het, _⟩
    · exact h
    · simp at het
  | cons et ets ih =>
    intro d0 k h
    simp only [List.foldl_cons]
    apply ih
    rcases h with h | ⟨et2, h2, h3⟩
    · by_cases hk : key et = k
      · left; rw [hk, dlookup_dinsert_self]; rfl
      · left; rw [dlookup_dinsert_ne _ _ _ _ (fun hh => hk hh.symm)]; exact h
    · rcases List.mem_cons.1 h2 with h4 | h4
      · left; rw [← h3, h4, dlookup_dinsert_self]; rfl
      · exact Or.inr ⟨et2, h4, h3⟩

theorem remap_keys_isSome {K K2 V : Type} [DecidableEq K] [DecidableEq K2]
    (d : List (K × V)) (m : List (K × K2))
    (h : ∀ kv ∈ d, (dlookup m kv.1).isSome = true) : (remap_keys d m).isSome = true := by
  unfold remap_keys
  suffices hgen : ∀ (d2 : List (K × V)), (∀ kv ∈ d2, (dlookup m kv.1).isSome = true) →
      ∀ (acc : List (K2 × V)),
        (d2.foldl (fun acc kv =>
          match acc, dlookup m kv.1 with
          | some d, some k2 => some (dinsert d k2 kv.2)
          | _, _ => none) (some acc)).isSome = true by
    exact hgen d h []
  intro d2
  induction d2 with
  | nil => intro _ acc; rfl
  | cons kv d2 ih =>
    intro h2 acc
    obtain ⟨k2, hk2⟩ := Option.isSome_iff_exists.1 (h2 kv (List.mem_cons_self _ _))
    simp only [List.foldl_cons, hk2]
    exact ih (fun kv2 hm => h2 kv2 (List.mem_cons_of_mem _ hm)) _

theorem remap_compactDict_isSome (ets : List (String × String × String))
    (F : (String × String × String) → List Nat) :
    (remap_keys (compactDict ets F) (mk_to_edge_type ets)).isSome = true := by
  apply remap_keys_isSome
  intro kv hkv
  rcases mem_foldl_dinsert relKey F ets [] kv hkv with h | ⟨et, het, hkey⟩
  · simp at h
  · rw [hkey]
    exact dlookup_foldl_dinsert_isSome (fun k => (relKey k, k).1) (fun k => (relKey k, k).2)
      ets [] (relKey et) (Or.inr ⟨et, het, rfl⟩)

theorem remap_op_row_isSome (nts : List String) (ets : List (String × String × String))
    (cpd rd pd seed : List (String × List Nat)) (nnd : List (String × List Int))
    (ntd : Option (List (String × List Nat))) (nh : Nat) (rep dir : Bool) (g : Nat → Nat) :
    (remap_keys (heteroNeighborSampleOp nts ets cpd rd pd seed nnd ntd nh rep dir g).row
      (mk_to_edge_type ets)).isSome = true :=
  remap_compactDict_isSome ets _

theorem remap_op_col_isSome (nts : List String) (ets : List (String × String × String))
    (cpd rd pd seed : List (String × List Nat)) (nnd : List (String × List Int))
    (ntd : Option (List (String × List Nat))) (nh : Nat) (rep dir : Bool) (g : Nat → Nat) :
    (remap_keys (heteroNeighborSampleOp nts ets cpd rd pd seed nnd ntd nh rep dir g).col
      (mk_to_edge_type ets)).isSome = true :=
  remap_compactDict_isSome ets _

theorem remap_op_edge_isSome (nts : List String) (ets : List (String × String × String))
    (cpd rd pd seed : List (String × List Nat)) (nnd : List (String × List Int))
    (ntd : Option (List (String × List Nat))) (nh : Nat) (rep dir : Bool) (g : Nat → Nat) :
    (remap_keys (heteroNeighborSampleOp nts ets cpd rd pd seed nnd ntd nh rep dir g).edge
      (mk_to_edge_type ets)).isSome = true :=
  remap_compactDict_isSome ets _

/-- C7 amended: the batch field tracks the backend, not only the temporal
request.  On the `pyg-lib` branch the returned batch dict is present
exactly when node times are configured (disjoint mode); on the
`torch-sparse` branch the batch field is always `None`, even when temporal
sampling is requested and performed (heterogeneous case), and the
homogeneous temporal call errors out instead. -/
theorem batch_field_by_backend (s : HeteroSampler) (hs : HomogSampler) (wp : Bool)
    (g g2 : Nat → Nat) (index index2 : List Nat) :
    ((s.sample wp g index).toOption.map (fun o => o.batch.isSome) =
      some (wp && s.node_time_dict.isSome)) ∧
    ((hs.sample wp g2 index2).toOption.map (fun o => o.batch.isSome) =
      if wp then some hs.node_time.isSome
      else if hs.node_time.isSome then none else some false) := by
  constructor
  · obtain ⟨r, hr⟩ := Option.isSome_iff_exists.1 (remap_op_row_isSome s.node_types
      s.edge_types s.colptr_dict s.row_dict s.perm_dict [(s.input_type, index)]
      s.num_neighbors s.node_time_dict s.num_hops s.replace s.directed g)
    obtain ⟨c, hc⟩ := Option.isSome_iff_exists.1 (remap_op_col_isSome s.node_types
      s.edge_types s.colptr_dict s.row_dict s.perm_dict [(s.input_type, index)]
      s.num_neighbors s.node_time_dict s.num_hops s.replace s.directed g)
    obtain ⟨e, he⟩ := Option.isSome_iff_exists.1 (remap_op_edge_isSome s.node_types
      s.edge_types s.colptr_dict s.row_dict s.perm_dict [(s.input_type, index)]
      s.num_neighbors s.node_time_dict s.num_hops s.replace s.directed g)
    simp only [HeteroSampler.sample, HeteroSampler.to_edge_type, hr, hc, he]
    cases hb : (wp && s.node_time_dict.isSome) <;> simp [hb, Except.toOption]
  · cases wp with
    | true =>
      simp only [HomogSampler.sample, Except.toOption, neighborSampleOp, if_true]
      cases hb : hs.node_time.isSome <;> simp [hb, Except.toOption]
    | false =>
      cases hnt : hs.node_time.isSome with
      | true => simp [HomogSampler.sample, hnt, Except.toOption]
      | false => simp [HomogSampler.sample, hnt, Except.toOption, neighborSampleOp]

/-- C7 counterexample: for the heterogeneous `torch-sparse` backend with
node times configured, temporal sampling is requested and performed, yet
the returned batch field is `None` — disjoint batch output is not active
exactly when temporal sampling is requested. -/
theorem batch_absent_despite_temporal :
    sTempHetero.node_time_dict.isSome = true ∧
    (sTempHetero.sample false gZero [0]).toOption.map (fun o => o.batch) = some none := by
  exact ⟨rfl, by decide⟩

/-! ## Claim C8: seeds first, then hop discoveries; seed count metadata -/

theorem visitStep_nodes_append (csc : CSC) (b : Nat) (st : SampleState) (c : Nat × Nat × Nat) :
    ∃ t, (visitStep csc b st c).nodes = st.nodes ++ t := by
  simp only [visitStep]
  split
  · exact ⟨[], (List.append_nil _).symm⟩
  · exact ⟨[c.1], rfl⟩

theorem foldl_visitStep_nodes_append (csc : CSC) (b : Nat) :
    ∀ (sel : List (Nat × Nat × Nat)) (st : SampleState),
      ∃ t, (sel.foldl (visitStep csc b) st).nodes = st.nodes ++ t := by
  intro sel
  induction sel with
  | nil => intro st; exact ⟨[], (List.append_nil _).symm⟩
  | cons c sel ih =>
    intro st
    obtain ⟨t1, ht1⟩ := visitStep_nodes_append csc b st c
    obtain ⟨t2, ht2⟩ := ih (visitStep csc b st c)
    exact ⟨t1 ++ t2, by rw [List.foldl_cons, ht2, ht1, List.append_assoc]⟩

theorem expandOne_nodes_append (csc : CSC) (nt : Option (List Nat)) (replace directed : Bool)
    (g : Nat → Nat) (k : Int) (st : SampleState) (nb : Nat × Nat) :
    ∃ t, (expandOne csc nt replace directed g k st nb).nodes = st.nodes ++ t :=
  foldl_visitStep_nodes_append csc nb.2 _ st

theorem foldl_expandOne_nodes_append (csc : CSC) (nt : Option (List Nat))
    (replace directed : Bool) (g : Nat → Nat) (k : Int) :
    ∀ (active : List (Nat × Nat)) (st : SampleState),
      ∃ t, (active.foldl (expandOne csc nt replace directed g k) st).nodes =
        st.nodes ++ t := by
  intro active
  induction active with
  | nil => intro st; exact ⟨[], (List.append_nil _).symm⟩
  | cons nb active ih =>
    intro st
    obtain ⟨t1, ht1⟩ := expandOne_nodes_append csc nt replace directed g k st nb
    obtain ⟨t2, ht2⟩ := ih (expandOne csc nt replace directed g k st nb)
    exact ⟨t1 ++ t2, by rw [List.foldl_cons, ht2, ht1, List.append_assoc]⟩

theorem runHops_nodes_append (csc : CSC) (nt : Option (List Nat)) (replace directed : Bool)
    (g : Nat → Nat) :
    ∀ (sched : List Int) (active : List (Nat × Nat)) (st : SampleState),
      ∃ t, (runHops csc nt replace directed g sched active st).nodes = st.nodes ++ t := by
  intro sched
  induction sched with
  | nil => intro active st; exact ⟨[], (List.append_nil _).symm⟩
  | cons k ks ih =>
    intro active st
    obtain ⟨t1, ht1⟩ := foldl_expandOne_nodes_append csc nt replace directed g k active st
    obtain ⟨t2, ht2⟩ := ih
      (((runHop csc nt replace directed g k st active).nodes.drop st.nodes.length).zip
        ((runHop csc nt replace directed g k st active).batch.drop st.batch.length))
      (runHop csc nt replace directed g k st active)
    refine ⟨t1 ++ t2, ?_⟩
    simp only [runHops]
    rw [ht2]
    have : (runHop csc nt replace directed g k st active).nodes = st.nodes ++ t1 := ht1
    rw [this, List.append_assoc]

/-- C8 (operator level): the output node list of the modelled operator
begins with the seeds in caller-supplied order (the hop discoveries are
appended after them, hop by hop), and the seed-count metadata equals the
number of supplied seeds. -/
theorem neighborSampleOp_seeds_first (csc : CSC) (seeds : List Nat) (nn : List Int)
    (nt : Option (List Nat)) (replace directed disjoint : Bool) (g : Nat → Nat) :
    (∃ t, (neighborSampleOp csc seeds nn nt replace directed disjoint g).node =
      seeds ++ t) ∧
    (neighborSampleOp csc seeds nn nt replace directed disjoint g).metadata =
      seeds.length := by
  constructor
  · obtain ⟨t, ht⟩ := runHops_nodes_append csc nt replace directed g nn
      (seeds.zip (List.range seeds.length)) ⟨seeds, List.range seeds.length, []⟩
    exact ⟨t, ht⟩
  · rfl

/-- C8: for every homogeneous sampling call that returns, the output node
list begins with all seeds in caller-supplied order followed by the hops'
newly visited nodes, and the metadata field equals the number of seed
nodes supplied to the call (`index.numel()`, source line 277). -/
theorem output_nodes_seeds_first (s : HomogSampler) (wp : Bool) (g : Nat → Nat)
    (index : List Nat) (out : SamplerOutput) (hok : s.sample wp g index = .ok out) :
    (∃ t, out.node = index ++ t) ∧ out.metadata = index.length := by
  unfold HomogSampler.sample at hok
  split at hok
  · injection hok with h
    subst h
    exact neighborSampleOp_seeds_first s.csc index s.num_neighbors s.node_time s.replace
      s.directed s.node_time.isSome g
  · split at hok
    · exact absurd hok (by simp)
    · injection hok with h
      subst h
      exact neighborSampleOp_seeds_first s.csc index s.num_neighbors none s.replace
        s.directed false g

/-- A homogeneous sampler over the chain graph without node times. -/
def sNoTime : HomogSampler :=
  { csc := cscChain, num_neighbors := [2], replace := false, directed := true,
    node_time := none }

/-- The concrete output of sampling seed 3 on the chain sampler. -/
def outChain : SamplerOutput := neighborSampleOp cscChain [3] [2] none false true false gZero

/-- Witness for C8 at the concrete chain call. -/
theorem output_nodes_seeds_first_witness :
    sNoTime.sample false gZero [3] = .ok outChain ∧
    ((∃ t, outChain.node = [3] ++ t) ∧ outChain.metadata = [3].length) :=
  ⟨rfl, output_nodes_seeds_first sNoTime false gZero [3] outChain rfl⟩

/-! ## Claim C1: every output edge is a real input edge -/

theorem length_filter_range_lt (f : Nat → Bool) :
    ∀ (m n : Nat), n ≤ m → (∀ c, c < m → (f c = true ↔ c < n)) →
      ((List.range m).filter f).length = n := by
  intro m
  induction m with
  | zero => intro n hn _; interval_cases n; rfl
  | succ m ih =>
    intro n hn h
    rcases Nat.lt_or_ge m n with hm | hm
    · have hnm : n = m + 1 := by omega
      subst hnm
      rw [List.filter_eq_self.2 (fun c hc => (h c (List.mem_range.1 hc)).2
        (List.mem_range.1 hc))]
      exact List.length_range _
    · rw [List.range_succ, List.filter_append]
      have hfm : f m = false := by
        rcases Bool.eq_false_or_eq_true (f m) with hb | hb
        · exact absurd ((h m (Nat.lt_succ_self m)).1 hb) (by omega)
        · exact hb
      have hsing : List.filter f [m] = [] := by
        simp [List.filter_cons, hfm]
      rw [hsing, List.append_nil]
      exact ih n hm (fun c hc => h c (by omega))

theorem colOf_eq (csc : CSC) (p n : Nat)
    (hmono : ∀ j, j < csc.colptr.length → ∀ i, i ≤ j →
      csc.colptr.getD i 0 ≤ csc.colptr.getD j 0)
    (hn : n + 1 < csc.colptr.length)
    (h1 : csc.colptr.getD n 0 ≤ p) (h2 : p < csc.colptr.getD (n + 1) 0) :
    colOf csc p = n := by
  unfold colOf
  apply length_filter_range_lt _ _ _ (by omega)
  intro c hc
  simp only [decide_eq_true_eq]
  constructor
  · intro hf
    by_contra hcn
    push_neg at hcn
    have := hmono (c + 1) (by omega) (n + 1) (by omega)
    omega
  · intro hcn
    have := hmono n (by omega) (c + 1) (by omega)
    omega

theorem mem_neighborRange (csc : CSC) (n p : Nat) (h : p ∈ neighborRange csc n) :
    csc.colptr.getD n 0 ≤ p ∧ p < csc.colptr.getD (n + 1) 0 := by
  unfold neighborRange at h
  rw [List.mem_range'] at h
  obtain ⟨i, hi, rfl⟩ := h
  omega

/-- Well-formedness of a CSC representation with respect to the original
edge list `E` (spec sections 3 and 4.1): `colptr` is a non-empty monotone
list whose last entry is the edge count, `row` has one entry per edge, and
`perm` maps each CSC position back to its original edge, whose endpoints
are the stored source and the owning column. -/
def WF (csc : CSC) (E : List (Nat × Nat)) : Prop :=
  csc.colptr ≠ [] ∧
  (∀ j, j < csc.colptr.length → ∀ i, i ≤ j →
    csc.colptr.getD i 0 ≤ csc.colptr.getD j 0) ∧
  csc.row.length = E.length ∧
  csc.colptr.getD (csc.colptr.length - 1) 0 = E.length ∧
  (∀ p, p < E.length →
    E.get? (csc.perm.getD p 0) = some (csc.row.getD p 0, colOf csc p))

/-- A recorded edge triple `(src, dst, pos)` is sound: the position is a
real CSC position whose stored source and owning column are the recorded
endpoints. -/
def EdgeOK (csc : CSC) (E : List (Nat × Nat)) (e : Nat × Nat × Nat) : Prop :=
  e.2.2 < E.length ∧ e.1 = csc.row.getD e.2.2 0 ∧ e.2.1 = colOf csc e.2.2

theorem candidatesOf_edgeOK (csc : CSC) (E : List (Nat × Nat)) (hwf : WF csc E)
    (directed : Bool) (n : Nat) :
    ∀ c ∈ candidatesOf csc directed n,
      EdgeOK csc E (csc.row.getD c.2.1 0, c.2.2, c.2.1) ∧
      ((c.2.2 = n ∧ c.1 = csc.row.getD c.2.1 0) ∨
        (c.1 = c.2.2 ∧ csc.row.getD c.2.1 0 = n)) := by
  obtain ⟨hne, hmono, hrow, hlast, hedge⟩ := hwf
  intro c hc
  unfold candidatesOf at hc
  rcases List.mem_append.1 hc with h | h
  · obtain ⟨p, hp, rfl⟩ := List.mem_map.1 h
    obtain ⟨h1, h2⟩ := mem_neighborRange csc n p hp
    have hn1 : n + 1 < csc.colptr.length := by
      by_contra hcon
      push_neg at hcon
      rw [List.getD_eq_default _ _ hcon] at h2
      omega
    have hcol : colOf csc p = n := colOf_eq csc p n hmono hn1 h1 h2
    have hplen : p < E.length := by
      have hpos : 0 < csc.colptr.length := List.length_pos.2 hne
      have hle := hmono (csc.colptr.length - 1) (by omega) (n + 1) (by omega)
      omega
    exact ⟨⟨hplen, rfl, hcol.symm⟩, Or.inl ⟨rfl, rfl⟩⟩
  · split at h
    · simp at h
    · obtain ⟨p, hp, rfl⟩ := List.mem_map.1 h
      obtain ⟨hpr, hpred⟩ := List.mem_filter.1 hp
      have hplen : p < E.length := by
        rw [← hrow]
        exact List.mem_range.1 hpr
      exact ⟨⟨hplen, rfl, rfl⟩, Or.inr ⟨rfl, by simpa using hpred⟩⟩

/-- The per-call invariant for C1: every recorded edge triple is sound and
both its endpoints are already in the visited node list. -/
def StateOK (csc : CSC) (E : List (Nat × Nat)) (st : SampleState) : Prop :=
  ∀ e ∈ st.edges, EdgeOK csc E e ∧ e.1 ∈ st.nodes ∧ e.2.1 ∈ st.nodes

theorem mem_nodes_visitStep (csc : CSC) (b : Nat) (st : SampleState) (c : Nat × Nat × Nat)
    (x : Nat) (h : x ∈ st.nodes) : x ∈ (visitStep csc b st c).nodes := by
  obtain ⟨t, ht⟩ := visitStep_nodes_append csc b st c
  rw [ht]
  exact List.mem_append_left _ h

theorem neighbor_mem_visitStep (csc : CSC) (b : Nat) (st : SampleState)
    (c : Nat × Nat × Nat) : c.1 ∈ (visitStep csc b st c).nodes := by
  simp only [visitStep]
  split
  · next h => exact h
  · simp

theorem foldl_visitStep_stateOK (csc : CSC) (E : List (Nat × Nat)) (b n : Nat) :
    ∀ (sel : List (Nat × Nat × Nat)) (st : SampleState),
      (∀ c ∈ sel, EdgeOK csc E (csc.row.getD c.2.1 0, c.2.2, c.2.1) ∧
        ((c.2.2 = n ∧ c.1 = csc.row.getD c.2.1 0) ∨
          (c.1 = c.2.2 ∧ csc.row.getD c.2.1 0 = n))) →
      n ∈ st.nodes → StateOK csc E st →
      StateOK csc E (sel.foldl (visitStep csc b) st) := by
  intro sel
  induction sel with
  | nil => intro st _ _ hok; exact hok
  | cons c sel ih =>
    intro st hsel hn hok
    simp only [List.foldl_cons]
    obtain ⟨hek, htag⟩ := hsel c (List.mem_cons_self _ _)
    have hst2ok : StateOK csc E (visitStep csc b st c) := by
      intro e he
      rw [visitStep_edges] at he
      rcases List.mem_append.1 he with he | he
      · obtain ⟨h1, h2, h3⟩ := hok e he
        exact ⟨h1, mem_nodes_visitStep csc b st c _ h2, mem_nodes_visitStep csc b st c _ h3⟩
      · simp only [List.mem_singleton] at he
        subst he
        refine ⟨hek, ?_, ?_⟩
        · rcases htag with ⟨h1, h2⟩ | ⟨h1, h2⟩
          · rw [← h2]
            exact neighbor_mem_visitStep csc b st c
          · rw [h2]
            exact mem_nodes_visitStep csc b st c _ hn
        · rcases htag with ⟨h1, h2⟩ | ⟨h1, h2⟩
          · rw [h1]
            exact mem_nodes_visitStep csc b st c _ hn
          · rw [← h1]
            exact neighbor_mem_visitStep csc b st c
    exact ih (visitStep csc b st c) (fun c2 h2 => hsel c2 (List.mem_cons_of_mem _ h2))
      (mem_nodes_visitStep csc b st c _ hn) hst2ok

theorem expandOne_stateOK (csc : CSC) (E : List (Nat × Nat)) (hwf : WF csc E)
    (nt : Option (List Nat)) (replace directed : Bool) (g : Nat → Nat) (k : Int)
    (st : SampleState) (nb : Nat × Nat) (hn : nb.1 ∈ st.nodes) (hok : StateOK csc E st) :
    StateOK csc E (expandOne csc nt replace directed g k st nb) := by
  unfold expandOne
  refine foldl_visitStep_stateOK csc E nb.2 nb.1 _ st ?_ hn hok
  intro c hc
  have h2 := selectNeighbors_subset g replace k _ hc
  have h3 : c ∈ candidatesOf csc directed nb.1 := by
    cases nt with
    | none => exact h2
    | some t => exact (mem_applyTimeFilter_le t nb.1 _ c h2).2
  exact candidatesOf_edgeOK csc E hwf directed nb.1 c h3

theorem foldl_expandOne_stateOK (csc : CSC) (E : List (Nat × Nat)) (hwf : WF csc E)
    (nt : Option (List Nat)) (replace directed : Bool) (g : Nat → Nat) (k : Int) :
    ∀ (active : List (Nat × Nat)) (st : SampleState),
      (∀ nb ∈ active, (nb : Nat × Nat).1 ∈ st.nodes) → StateOK csc E st →
      StateOK csc E (active.foldl (expandOne csc nt replace directed g k) st) := by
  intro active
  induction active with
  | nil => intro st _ hok; exact hok
  | cons nb active ih =>
    intro st hact hok
    simp only [List.foldl_cons]
    have hst2 : StateOK csc E (expandOne csc nt replace directed g k st nb) :=
      expandOne_stateOK csc E hwf nt replace directed g k st nb
        (hact nb (List.mem_cons_self _ _)) hok
    refine ih (expandOne csc nt replace directed g k st nb) ?_ hst2
    intro nb2 h2
    obtain ⟨t, ht⟩ := expandOne_nodes_append csc nt replace directed g k st nb
    rw [ht]
    exact List.mem_append_left _ (hact nb2 (List.mem_cons_of_mem _ h2))

theorem runHops_stateOK (csc : CSC) (E : List (Nat × Nat)) (hwf : WF csc E)
    (nt : Option (List Nat)) (replace directed : Bool) (g : Nat → Nat) :
    ∀ (sched : List Int) (active : List (Nat × Nat)) (st : SampleState),
      (∀ nb ∈ active, (nb : Nat × Nat).1 ∈ st.nodes) → StateOK csc E st →
      StateOK csc E (runHops csc nt replace directed g sched active st) := by
  intro sched
  induction sched with
  | nil => intro active st _ hok; exact hok
  | cons k ks ih =>
    intro active st hact hok
    simp only [runHops]
    have hst2 : StateOK csc E (runHop csc nt replace directed g k st active) :=
      foldl_expandOne_stateOK csc E hwf nt replace directed g k active st hact hok
    refine ih _ _ ?_ hst2
    intro nb hnb
    obtain ⟨x, y⟩ := nb
    have hx := (List.of_mem_zip hnb).1
    exact List.mem_of_mem_drop hx

theorem getD_indexOf {l : List Nat} {x : Nat} (h : x ∈ l) :
    l.getD (l.indexOf x) 0 = x := by
  rw [List.getD_eq_getElem _ _ (List.indexOf_lt_length.2 h)]
  exact List.getElem_indexOf _

theorem assemble_edges_real (csc : CSC) (E : List (Nat × Nat)) (st : SampleState)
    (hwf : WF csc E) (hok : StateOK csc E st) (i : Nat) (hi : i < st.edges.length) :
    E.get? ((st.edges.map (fun e => csc.perm.getD e.2.2 0)).getD i 0) =
      some ((st.nodes.getD ((st.edges.map (fun e => st.nodes.indexOf e.1)).getD i 0) 0),
        (st.nodes.getD ((st.edges.map (fun e => st.nodes.indexOf e.2.1)).getD i 0) 0)) := by
  rw [List.getD_eq_getElem _ _ (by simpa using hi), List.getElem_map]
  rw [List.getD_eq_getElem _ _ (by simpa using hi : i <
    (st.edges.map (fun e => st.nodes.indexOf e.1)).length), List.getElem_map]
  rw [List.getD_eq_getElem _ _ (by simpa using hi : i <
    (st.edges.map (fun e => st.nodes.indexOf e.2.1)).length), List.getElem_map]
  obtain ⟨hek, hsrc, hdst⟩ := hok (st.edges[i]) (List.getElem_mem _)
  obtain ⟨hplen, he1, he21⟩ := hek
  rw [hwf.2.2.2.2 _ hplen]
  rw [getD_indexOf hsrc, getD_indexOf hdst]
  rw [he1, he21]

/-- C1 (operator level): under a well-formed CSC representation of the
edge list `E`, every edge emitted by the modelled operator is a real input
edge: the original edge id recovered through `perm` designates exactly the
input edge joining the nodes that `row[i]`/`col[i]` point at in the
sampled node list. -/
theorem neighborSampleOp_edges_real (csc : CSC) (E : List (Nat × Nat)) (seeds : List Nat)
    (nn : List Int) (nt : Option (List Nat)) (replace directed disjoint : Bool)
    (g : Nat → Nat) (hwf : WF csc E) (i : Nat)
    (hi : i < (neighborSampleOp csc seeds nn nt replace directed disjoint g).row.length) :
    E.get? ((neighborSampleOp csc seeds nn nt replace directed disjoint g).edge.getD i 0) =
      some ((neighborSampleOp csc seeds nn nt replace directed disjoint g).node.getD
          ((neighborSampleOp csc seeds nn nt replace directed disjoint g).row.getD i 0) 0,
        (neighborSampleOp csc seeds nn nt replace directed disjoint g).node.getD
          ((neighborSampleOp csc seeds nn nt replace directed disjoint g).col.getD i 0) 0) := by
  have hseed : ∀ nb ∈ seeds.zip (List.range seeds.length), (nb : Nat × Nat).1 ∈ seeds := by
    intro nb hnb
    obtain ⟨x, y⟩ := nb
    exact (List.of_mem_zip hnb).1
  have hinit : StateOK csc E ⟨seeds, List.range seeds.length, []⟩ := by
    intro e he
    simp at he
  have hok := runHops_stateOK csc E hwf nt replace directed g nn
    (seeds.zip (List.range seeds.length)) ⟨seeds, List.range seeds.length, []⟩ hseed hinit
  exact assemble_edges_real csc E _ hwf hok i (by simpa [neighborSampleOp] using hi)

/-- C1: for every homogeneous sampling call that returns, every edge in
the output corresponds to an edge of the original input graph: for each
output index `i`, the pair `(row[i], col[i])`, read through the sampled
node list, maps back via `perm` (the id stored in the `edge` array) to a
real input edge.  No edge is fabricated. -/
theorem output_edges_are_real (s : HomogSampler) (E : List (Nat × Nat)) (wp : Bool)
    (g : Nat → Nat) (index : List Nat) (out : SamplerOutput) (hwf : WF s.csc E)
    (hok : s.sample wp g index = .ok out) (i : Nat) (hi : i < out.row.length) :
    E.get? (out.edge.getD i 0) =
      some (out.node.getD (out.row.getD i 0) 0, out.node.getD (out.col.getD i 0) 0) := by
  unfold HomogSampler.sample at hok
  split at hok
  · injection hok with h
    subst h
    exact neighborSampleOp_edges_real s.csc E index s.num_neighbors s.node_time s.replace
      s.directed s.node_time.isSome g hwf i hi
  · split at hok
    · exact absurd hok (by simp)
    · injection hok with h
      subst h
      exact neighborSampleOp_edges_real s.csc E index s.num_neighbors none s.replace
        s.directed false g hwf i hi

instance (csc : CSC) (E : List (Nat × Nat)) : Decidable (WF csc E) := by
  unfold WF
  infer_instance

/-- The chain graph's original edge list (edge p goes from p to p+1). -/
def EChain : List (Nat × Nat) := [(0, 1), (1, 2), (2, 3)]

/-- Witness for C1 at the concrete chain call: the single output edge is
the input edge (2, 3). -/
theorem output_edges_are_real_witness :
    WF cscChain EChain ∧ 0 < outChain.row.length ∧
    EChain.get? (outChain.edge.getD 0 0) =
      some (outChain.node.getD (outChain.row.getD 0 0) 0,
        outChain.node.getD (outChain.col.getD 0 0) 0) :=
  ⟨by decide, by decide,
    output_edges_are_real sNoTime EChain false gZero [3] outChain (by decide) rfl 0
      (by decide)⟩
